import Mathlib

/-!
Verification of the mdcode command-line tool (a thin convenience layer over
git) against its natural-language specification.

The development shallowly embeds the tool's own logic:
paths are lists of components, repositories are explicit records whose fields
hold the answers of the underlying VCS library (commit lists in revwalk order,
status entries, blob contents), and each Rust function is translated into a
Lean function over those records.  Machine integers are modelled as `Nat`/`Int`
with explicit wrap-around where the source casts.
-/

namespace Mdcode

/-! ## Paths

A filesystem path is modelled as its list of components (Rust `Path::components`).
`file_name` is the last component; `extension` follows Rust `Path::extension`:
the part of the file name after its last dot, none when there is no dot or the
only dot is leading.
-/

abbrev FsPath := List String

def fileNameOf (p : FsPath) : Option String := p.getLast?

/-- Index of the last occurrence of `c` in `l`, if any. -/
def lastIdxOf (c : Char) (l : List Char) : Option Nat :=
  match l with
  | [] => none
  | x :: xs =>
    match lastIdxOf c xs with
    | some i => some (i + 1)
    | none => if x = c then some 0 else none

/-- Rust `Path::extension` restricted to a known file name: the substring after
the last `.`, or none when there is no dot or the file name begins with the
only dot. -/
def extensionOfName (name : String) : Option String :=
  match lastIdxOf '.' name.toList with
  | none => none
  | some 0 => none
  | some i => some (String.mk (name.toList.drop (i + 1)))

def extensionOf (p : FsPath) : Option String :=
  match fileNameOf p with
  | none => none
  | some n => extensionOfName n

/-! ## File classifier (`src/detect_full.rs`) -/

def asciiLowerChar (c : Char) : Char :=
  if 'A' ≤ c ∧ c ≤ 'Z' then Char.ofNat (c.toNat + 32) else c

/-- ASCII case folding.  The source lowercases extensions with Unicode
`to_lowercase` and compares special file names with `eq_ignore_ascii_case`;
both agree with ASCII folding on ASCII strings, which is all the static table
contains. -/
def asciiLower (s : String) : String := String.mk (s.toList.map asciiLowerChar)

def eqIgnoreAsciiCase (a b : String) : Bool := asciiLower a = asciiLower b

/-- The static extension table of `detect_file_type`, keyed by the lowercased
extension. -/
def extTable (ext : String) : Option String :=
  match ext with
  | "c" => some "C"
  | "cpp" | "cc" | "cxx" => some "C++"
  | "h" => some "C/C++ Header"
  | "hpp" | "hh" | "hxx" => some "C++ Header"
  | "java" => some "Java"
  | "py" => some "Python"
  | "rb" => some "Ruby"
  | "cs" => some "C#"
  | "go" => some "Go"
  | "php" => some "PHP"
  | "rs" => some "Rust"
  | "swift" => some "Swift"
  | "kt" | "kts" => some "Kotlin"
  | "scala" => some "Scala"
  | "js" | "jsx" => some "JavaScript"
  | "ts" | "tsx" => some "TypeScript"
  | "sh" | "bash" | "zsh" => some "Shell Script"
  | "bat" => some "Batch Script"
  | "ps1" => some "PowerShell"
  | "r" => some "R"
  | "jl" => some "Julia"
  | "mm" => some "Objective-C++"
  | "cmake" => some "CMake"
  | "proto" => some "Protobuf"
  | "graphql" | "gql" => some "GraphQL"
  | "thrift" => some "Thrift"
  | "html" | "htm" => some "HTML"
  | "css" | "scss" | "sass" | "less" => some "CSS"
  | "xml" => some "XML"
  | "json" => some "JSON"
  | "yml" | "yaml" => some "YAML"
  | "toml" => some "TOML"
  | "lock" => some "Lockfile"
  | "md" | "txt" | "rst" | "adoc" => some "Documentation"
  | "ipynb" => some "Notebook"
  | "ini" | "cfg" | "conf" => some "Configuration"
  | "sln" => some "Solution File"
  | "csproj" => some "C# Project File"
  | "pom" => some "Maven Project File"
  | "gradle" => some "Gradle Build File"
  | "iss" => some "Installer Script"
  | "sql" => some "SQL"
  | "jpg" | "jpeg" => some "Image"
  | "png" => some "Image"
  | "bmp" => some "Image"
  | "gif" => some "Image"
  | "tiff" => some "Image"
  | "webp" => some "Image"
  | "svg" => some "Vector Image"
  | "ico" => some "Icon"
  | "cur" => some "Cursor"
  | "dlg" => some "Dialog File"
  | "wav" | "mp3" | "flac" | "aac" | "m4a" | "ogg" | "opus" | "aiff" | "aif"
  | "wma" | "mid" | "midi" => some "Audio"
  | "ttf" | "otf" | "woff" | "woff2" => some "Font"
  | _ => none

/-- `detect_file_type` (src/detect_full.rs): special file names first
(case-insensitive), then the lowercased extension in the static table. -/
def detect_file_type (file_path : FsPath) : Option String :=
  match fileNameOf file_path with
  | none => none
  | some file_name =>
    if eqIgnoreAsciiCase file_name "LICENSE" then some "License"
    else if eqIgnoreAsciiCase file_name "Dockerfile" then some "Build Script"
    else if eqIgnoreAsciiCase file_name "Makefile" then some "Build Script"
    else if eqIgnoreAsciiCase file_name "CMakeLists.txt" then some "CMake"
    else
      match extensionOfName file_name with
      | none => none
      | some ext => extTable (asciiLower ext)

/-! ## Directory scanner (`src/lib.rs`)

The `ignore` crate walker and the explicit `GitignoreBuilder` matcher are
external collaborators; a walk is modelled as the list of entries the walker
yields, each carrying the matcher's verdict (`ignored`) and the
`fs::metadata` answer (`size`, `none` when metadata fails).
-/

/-- `is_in_excluded_path` (src/lib.rs:886): true when any path component is a
fixed build/virtual-env/VCS-metadata directory name. -/
def is_in_excluded_path (path : FsPath) : Bool :=
  path.any fun comp =>
    match comp with
    | "target" | "target_ci" => true
    | "bin" | "obj" => true
    | "venv" | ".venv" | "env" => true
    | ".git" | ".hg" | ".svn" => true
    | _ => false

/-- One entry yielded by the ignore-aware walker. -/
structure WalkEntry where
  path : FsPath
  isFile : Bool
  /-- Verdict of the local `.gitignore` matcher
  (`matched_path_or_any_parents(...).is_ignore()`). -/
  ignored : Bool
  /-- `fs::metadata(path).len()`, `none` when metadata fails. -/
  size : Option Nat
  deriving Repr, DecidableEq

/-- `u64::saturating_mul`. -/
def u64SatMul (a b : Nat) : Nat := min (a * b) (2 ^ 64 - 1)

/-- The byte cap computed by `scan_source_files`:
`max_file_mb.saturating_mul(1024).saturating_mul(1024)`. -/
def capBytes (max_file_mb : Nat) : Nat := u64SatMul (u64SatMul max_file_mb 1024) 1024

/-- Loop body accumulation of `scan_total_files` (src/lib.rs:1148): count
every regular file that is neither under an excluded path nor gitignored. -/
def scan_total_files : List WalkEntry → Nat
  | [] => 0
  | e :: rest =>
    if is_in_excluded_path e.path then scan_total_files rest
    else if e.ignored then scan_total_files rest
    else if e.isFile then scan_total_files rest + 1
    else scan_total_files rest

/-- Loop of `scan_source_files` with the byte cap already computed. -/
def scanSourceLoop (cap_bytes : Nat) : List WalkEntry → List FsPath × Nat
  | [] => ([], 0)
  | e :: rest =>
    if is_in_excluded_path e.path then scanSourceLoop cap_bytes rest
    else if e.isFile then
      if e.ignored then scanSourceLoop cap_bytes rest
      else if (detect_file_type e.path).isSome then
        match e.size with
        | some n =>
          if n > cap_bytes then scanSourceLoop cap_bytes rest
          else
            ((scanSourceLoop cap_bytes rest).1.cons e.path,
              (scanSourceLoop cap_bytes rest).2 + 1)
        | none =>
          ((scanSourceLoop cap_bytes rest).1.cons e.path,
            (scanSourceLoop cap_bytes rest).2 + 1)
      else scanSourceLoop cap_bytes rest
    else scanSourceLoop cap_bytes rest

/-- `scan_source_files` (src/lib.rs:1228): keep files that survive the
exclusion list and the gitignore matcher, are recognized by the classifier,
and whose known size does not exceed the cap; return the kept paths and their
count.  The source appends at the loop's tail, so the returned order is the
walk order, matched here by consing while recursing forward. -/
def scan_source_files (walk : List WalkEntry) (max_file_mb : Nat) :
    List FsPath × Nat :=
  scanSourceLoop (capBytes max_file_mb) walk

/-! ## Commit history indexing (`src/lib.rs`)

A repository's reachable history is modelled by the list the revwalk yields
after `push_head` and `set_sorting(Sort::TIME)`: commit ids sorted by commit
time descending (newest first).  Commit ids are abstract (`Nat`).
-/

abbrev Oid := Nat

/-- The commit list a `revwalk` over HEAD with time sorting collects:
newest first. -/
structure RepoHistory where
  commits : List Oid
  deriving Repr, DecidableEq

/-- Rust `idx as usize` for a 64-bit target: sign extension, i.e. reduction
modulo `2 ^ 64`. -/
def i32AsUsize (idx : Int) : Nat := (idx % (2 ^ 64 : Int)).toNat

/-- `get_commit_by_index` (src/lib.rs:1323): collect the revwalk, then return
the commit at `idx as usize` when in bounds, otherwise the
"Index out of bounds" error. -/
def get_commit_by_index (repo : RepoHistory) (idx : Int) : Except String Oid :=
  let commits := repo.commits
  if h : i32AsUsize idx < commits.length then
    .ok (commits.get ⟨i32AsUsize idx, h⟩)
  else
    .error "Index out of bounds"

/-- The display rows of `info_repository` (src/lib.rs:1794): the revwalk list
is reversed to oldest-first, and row `i` of the reversed list is printed with
display index `total - 1 - i`. -/
def info_display_rows (repo : RepoHistory) : List (Oid × Nat) :=
  let commit_ids := repo.commits.reverse
  let total := commit_ids.length
  (commit_ids.enum.map fun ic => (ic.2, total - 1 - ic.1))

/-! ## Remotes (`src/lib.rs`)

A repository's remote set is an association list from remote name to URL;
`find_remote` is a lookup and `repo.remote(name, url)` registers a new pair.
-/

structure RemoteRepo where
  remotes : List (String × String)
  deriving Repr, DecidableEq

def findRemote (repo : RemoteRepo) (name : String) : Option String :=
  (repo.remotes.find? fun r => r.1 = name).map (·.2)

/-- `add_remote` (src/lib.rs:2152): when `find_remote` fails, register the
remote with the given URL; otherwise do nothing.  Always succeeds. -/
def add_remote (repo : RemoteRepo) (remote_name remote_url : String) :
    Except String RemoteRepo :=
  if (findRemote repo remote_name).isNone then
    .ok ⟨repo.remotes ++ [(remote_name, remote_url)]⟩
  else
    .ok repo

/-! ## Tree checkout (`src/lib.rs`)

Git objects: blobs carry byte contents, trees carry named entries, commit
entries (submodule links) carry nothing.  Entry names are UTF-8 strings; tree
entries whose name is not valid UTF-8 make `checkout_tree_to_dir` fail in the
source, a case outside this model.
-/

inductive GitObj where
  | blob (content : List Nat)
  | tree (entries : List (String × GitObj))
  | commitLink
  deriving Repr

/-- The files `checkout_tree_to_dir` (src/lib.rs:1954) writes for a tree's
entry list, in order: each blob entry becomes a file at `target/name`, each
subtree recurses into `target/name`, commit entries are skipped. -/
def checkoutEntries (target : FsPath) : List (String × GitObj) → List (FsPath × List Nat)
  | [] => []
  | (name, .tree sub) :: rest =>
    checkoutEntries (target ++ [name]) sub ++ checkoutEntries target rest
  | (name, .blob c) :: rest =>
    (target ++ [name], c) :: checkoutEntries target rest
  | (_, .commitLink) :: rest => checkoutEntries target rest

/-- The files `checkout_tree_to_dir` writes when handed a tree object. -/
def checkoutWrites (target : FsPath) : GitObj → List (FsPath × List Nat)
  | .tree entries => checkoutEntries target entries
  | .blob _ => []
  | .commitLink => []

/-- The blobs below a tree's entry list with their relative paths: what
re-reading the materialized directory must reproduce. -/
def treeBlobsEntries : List (String × GitObj) → List (FsPath × List Nat)
  | [] => []
  | (name, .tree sub) :: rest =>
    (treeBlobsEntries sub).map (fun pc => (name :: pc.1, pc.2)) ++ treeBlobsEntries rest
  | (name, .blob c) :: rest => ([name], c) :: treeBlobsEntries rest
  | (_, .commitLink) :: rest => treeBlobsEntries rest

/-- The blobs of a git object with their relative paths. -/
def treeBlobs : GitObj → List (FsPath × List Nat)
  | .tree entries => treeBlobsEntries entries
  | .blob _ => []
  | .commitLink => []

mutual

/-- Well-formed git object: entry names are distinct at every level (an
invariant git itself maintains for tree objects). -/
def wfObj : GitObj → Bool
  | .blob _ => true
  | .commitLink => true
  | .tree entries => wfEntries entries

/-- Well-formedness of a tree's entry list. -/
def wfEntries : List (String × GitObj) → Bool
  | [] => true
  | (name, obj) :: rest =>
    !((rest.map Prod.fst).contains name) && wfObj obj && wfEntries rest

end

/-- The filesystem state after a sequence of writes into an initially empty
fresh directory: `File::create` truncates, so a later write to the same path
wins. -/
def readBack (writes : List (FsPath × List Nat)) (p : FsPath) : Option (List Nat) :=
  match writes with
  | [] => none
  | w :: rest =>
    match readBack rest p with
    | some c => some c
    | none => if w.1 = p then some w.2 else none

/-! ## Dirty check (`src/lib.rs:599`, `is_dirty`)

The libgit2 status call is made with untracked files excluded
(`include_untracked(false)`), so `statuses` below is the list that call
returns.  The HEAD tree and the working directory are modelled as association
lists from a file's repository-relative path to its byte contents; a HEAD
lookup miss stands for both `get_path` failure and `find_blob` failure (each
makes the source return dirty), and a working-directory miss stands for
`fs::read` failure.
-/

/-- The per-entry status flags reported by `repo.statuses`. -/
structure StatusFlags where
  index_new : Bool := false
  index_modified : Bool := false
  index_deleted : Bool := false
  index_renamed : Bool := false
  index_typechange : Bool := false
  wt_new : Bool := false
  wt_modified : Bool := false
  wt_deleted : Bool := false
  wt_renamed : Bool := false
  wt_typechange : Bool := false
  deriving Repr, DecidableEq

structure StatusEntry where
  path : String
  status : StatusFlags
  deriving Repr, DecidableEq

structure DirtyRepo where
  /-- Whether `repo.head()` succeeds, i.e. the repository has a commit. -/
  hasHead : Bool
  /-- HEAD tree: relative path to blob bytes. -/
  headTree : List (String × List Nat)
  /-- Working directory: relative path to readable file bytes. -/
  workdir : List (String × List Nat)
  /-- What `repo.statuses` returns under the options of `is_dirty`. -/
  statuses : List StatusEntry
  deriving Repr, DecidableEq

/-- The status mask `is_dirty` treats as a candidate change (src/lib.rs:618):
any staged change, or a worktree modification/deletion/rename/typechange.
`WT_NEW` (untracked) is absent from the mask. -/
def candidateChange (st : StatusFlags) : Bool :=
  st.index_new || st.index_modified || st.index_deleted || st.index_renamed ||
    st.index_typechange || st.wt_modified || st.wt_deleted || st.wt_renamed ||
    st.wt_typechange

/-- `normalize_eol` (src/lib.rs:641): replace each CRLF pair with LF. -/
def normalize_eol : List Nat → List Nat
  | 13 :: 10 :: rest => 10 :: normalize_eol rest
  | b :: rest => b :: normalize_eol rest
  | [] => []

def lookupBytes (m : List (String × List Nat)) (p : String) : Option (List Nat) :=
  (m.find? fun e => e.1 = p).map (·.2)

/-- The confirmation pass of `is_dirty` for one candidate entry
(src/lib.rs:657): staged new/deleted/typechange is dirty outright; otherwise
compare the HEAD blob against the working-tree bytes after EOL normalization,
treating any lookup or read failure as dirty. -/
def entryConfirmedDirty (r : DirtyRepo) (s : StatusEntry) : Bool :=
  if s.status.index_new || s.status.index_deleted || s.status.index_typechange then
    true
  else
    match lookupBytes r.headTree s.path with
    | none => true
    | some headBytes =>
      match lookupBytes r.workdir s.path with
      | none => true
      | some wtBytes => normalize_eol headBytes ≠ normalize_eol wtBytes

/-- `is_dirty` (src/lib.rs:599): not dirty without a commit; not dirty when no
status entry carries a candidate flag; otherwise dirty exactly when some
candidate entry survives the EOL-normalized byte comparison. -/
def is_dirty (r : DirtyRepo) : Bool :=
  if !r.hasHead then false
  else if !(r.statuses.any fun s => candidateChange s.status) then false
  else r.statuses.any fun s => candidateChange s.status && entryConfirmedDirty r s

/-! ## Strict semantic versions (`semver` crate, used by `normalize_semver_tag`)

`SemverVersion::parse` is the strict parser of the external `semver` crate:
`MAJOR.MINOR.PATCH` with dot-separated numeric fields (no leading zeros, each
fitting `u64`), an optional `-` prerelease of dot-separated nonempty
alphanumeric-or-hyphen identifiers whose all-digit identifiers have no leading
zeros, and an optional `+` build of dot-separated nonempty
alphanumeric-or-hyphen identifiers.  The parsed numeric fields are stored here
as their digit strings; since accepted fields have no leading zeros and fit
`u64`, the crate's `Display` reprints exactly these digits.
-/

/-- Split at the first occurrence of `c`: the part before it, and the part
after it when present. -/
def splitFirst (c : Char) : List Char → List Char × Option (List Char)
  | [] => ([], none)
  | x :: xs =>
    if x = c then ([], some xs)
    else ((splitFirst c xs).1.cons x, (splitFirst c xs).2)

/-- Split into the (always nonempty) list of `c`-separated groups. -/
def splitAll (c : Char) : List Char → List (List Char)
  | [] => [[]]
  | x :: xs =>
    match splitAll c xs with
    | [] => [[]]
    | g :: gs => if x = c then [] :: g :: gs else (x :: g) :: gs

/-- Join groups back with separator `c`. -/
def joinSep (c : Char) : List (List Char) → List Char
  | [] => []
  | [g] => g
  | g :: gs => g ++ c :: joinSep c gs

def isAsciiDigit (c : Char) : Bool := '0' ≤ c && c ≤ '9'

def isIdentChar (c : Char) : Bool :=
  isAsciiDigit c || ('a' ≤ c && c ≤ 'z') || ('A' ≤ c && c ≤ 'Z') || c = '-'

def digitsVal (g : List Char) : Nat :=
  g.foldl (fun acc c => acc * 10 + (c.toNat - '0'.toNat)) 0

/-- A valid numeric version field: nonempty digits, no leading zero, fits
`u64`. -/
def validNumericField (g : List Char) : Bool :=
  !g.isEmpty && g.all isAsciiDigit &&
    !(g.length > 1 && g.headI = '0') && digitsVal g < 2 ^ 64

/-- A valid prerelease identifier: nonempty, alphanumeric or hyphen, and when
all digits it has no leading zero. -/
def validPreId (g : List Char) : Bool :=
  !g.isEmpty && g.all isIdentChar &&
    !(g.all isAsciiDigit && g.length > 1 && g.headI = '0')

/-- A valid build identifier: nonempty, alphanumeric or hyphen. -/
def validBuildId (g : List Char) : Bool :=
  !g.isEmpty && g.all isIdentChar

/-- A parsed strict semantic version, with numeric fields kept as their digit
strings. -/
structure Semver where
  major : List Char
  minor : List Char
  patch : List Char
  pre : List (List Char)
  build : List (List Char)
  deriving Repr, DecidableEq

/-- The characters of the crate's canonical `Display` of a version. -/
def semverChars (v : Semver) : List Char :=
  v.major ++ '.' :: v.minor ++ '.' :: v.patch ++
    (if v.pre.isEmpty then [] else '-' :: joinSep '.' v.pre) ++
    (if v.build.isEmpty then [] else '+' :: joinSep '.' v.build)

def semverToString (v : Semver) : String := String.mk (semverChars v)

/-- `SemverVersion::parse` of the `semver` crate on a character list: split
the build part at the first `+`, the prerelease at the first `-` before it,
require exactly three valid numeric dot-separated core fields, and validate
each prerelease/build identifier. -/
def parseSemver (cs : List Char) : Option Semver :=
  match splitAll '.' (splitFirst '-' (splitFirst '+' cs).1).1 with
  | [a, b, c] =>
    if validNumericField a && validNumericField b && validNumericField c then
      match
        (match (splitFirst '-' (splitFirst '+' cs).1).2 with
         | none => some []
         | some p =>
           if (splitAll '.' p).all validPreId then some (splitAll '.' p)
           else none),
        (match (splitFirst '+' cs).2 with
         | none => some []
         | some bl =>
           if (splitAll '.' bl).all validBuildId then some (splitAll '.' bl)
           else none) with
      | some preIds, some bldIds => some ⟨a, b, c, preIds, bldIds⟩
      | _, _ => none
    else none
  | _ => none

def parseSemverStr (s : String) : Option Semver := parseSemver s.toList

/-- Rust `str::trim_start_matches('v')`: drop every leading lowercase `v`. -/
def stripLeadingV (cs : List Char) : List Char := cs.dropWhile (fun c => c = 'v')

/-- Rust `char::is_whitespace`: the Unicode White_Space code points. -/
def isRustWhitespace (c : Char) : Bool :=
  ([0x09, 0x0A, 0x0B, 0x0C, 0x0D, 0x20, 0x85, 0xA0, 0x1680,
    0x2000, 0x2001, 0x2002, 0x2003, 0x2004, 0x2005, 0x2006, 0x2007, 0x2008,
    0x2009, 0x200A, 0x2028, 0x2029, 0x202F, 0x205F, 0x3000] : List Nat).contains
    c.toNat

/-- Rust `str::trim`: drop leading and trailing whitespace. -/
def rustTrim (cs : List Char) : List Char :=
  ((cs.dropWhile isRustWhitespace).reverse.dropWhile isRustWhitespace).reverse

/-- `normalize_semver_tag` (src/lib.rs:727 and src/main.rs:541): trim, strip
leading `v`s, parse strictly, and on success return the version together with
the tag name `v` followed by its canonical rendering. -/
def normalize_semver_tag (input : String) : Except String (Semver × String) :=
  match parseSemver (stripLeadingV (rustTrim input.toList)) with
  | none => .error "invalid semver"
  | some parsed => .ok (parsed, "v" ++ semverToString parsed)

/-! ## Tag creation (`tag_release`, src/lib.rs:742 and src/main.rs:550)

The call's interaction with the repository and with the spawned `git`
processes is captured in a context record (what `is_dirty`, `Cargo.toml`
reading, stdin, the tag references, the remote list and the subprocess exit
statuses answer) and in an outcome listing the performed effects in order.
-/

inductive TagEffect where
  | tagCreated (name : String)
  | tagPushed (remote name : String)
  deriving Repr, DecidableEq

structure TagContext where
  /-- What `is_dirty` answers for the directory. -/
  dirty : Bool
  /-- `--version` flag. -/
  versionFlag : Option String
  /-- What `read_version_from_cargo_toml` answers. -/
  cargoVersion : Option String
  /-- The line read from stdin when prompting. -/
  promptLine : String
  /-- Names of existing tags (`refs/tags/<name>` present). -/
  tagRefs : List String
  /-- Configured remotes (name, url). -/
  remotes : List (String × String)
  /-- Whether `git tag` exits successfully. -/
  gitTagOk : Bool
  /-- Whether `git push` exits successfully. -/
  gitPushOk : Bool
  deriving Repr, DecidableEq

structure TagOutcome where
  result : Except String Unit
  effects : List TagEffect
  deriving Repr

def dirtyTreeMsg : String :=
  "working tree has uncommitted changes; use --allow-dirty to create a tag anyway"

/-- The version-resolution and tagging sequence shared by both `tag_release`
implementations, i.e. everything after the library's dirty gate: resolve the
version (flag, then Cargo.toml, then trimmed prompt), normalize it, refuse an
existing tag unless forced, stop before effects in dry-run, then run `git tag`
and optionally validate the remote and run `git push`. -/
def tagCore (ctx : TagContext) (push : Bool) (remote : String)
    (force dry_run : Bool) : TagOutcome :=
  let version_str :=
    match ctx.versionFlag with
    | some v => v
    | none =>
      match ctx.cargoVersion with
      | some v => v
      | none => String.mk (rustTrim ctx.promptLine.toList)
  match normalize_semver_tag version_str with
  | .error e => ⟨.error e, []⟩
  | .ok (_, tag_name) =>
    let tagExists := ctx.tagRefs.contains tag_name
    if tagExists && !force then
      ⟨.error "tag already exists; use --force to overwrite", []⟩
    else if dry_run then ⟨.ok (), []⟩
    else if !ctx.gitTagOk then ⟨.error "failed to create tag via git", []⟩
    else if push then
      if (findRemote ⟨ctx.remotes⟩ remote).isNone then
        ⟨.error "remote not found", [.tagCreated tag_name]⟩
      else if !ctx.gitPushOk then
        ⟨.error "failed to push tag", [.tagCreated tag_name]⟩
      else
        ⟨.ok (), [.tagCreated tag_name, .tagPushed remote tag_name]⟩
    else ⟨.ok (), [.tagCreated tag_name]⟩

/-- `tag_release` of the library (src/lib.rs:742): gate on the dirty check
unless `--allow-dirty`, then proceed with the shared sequence. -/
def lib_tag_release (ctx : TagContext) (push : Bool) (remote : String)
    (force allow_dirty dry_run : Bool) : TagOutcome :=
  if !allow_dirty && ctx.dirty then ⟨.error dirtyTreeMsg, []⟩
  else tagCore ctx push remote force dry_run

/-- `tag_release` of the binary (src/main.rs:550): the dirty gate is absent
and the `allow_dirty` argument is ignored (`_allow_dirty`); the tagging
sequence is otherwise the same. -/
def main_tag_release (ctx : TagContext) (push : Bool) (remote : String)
    (force _allow_dirty dry_run : Bool) : TagOutcome :=
  tagCore ctx push remote force dry_run

/-! # Theorems -/

/-! ## Classifier characterization (spec §4.1, §8) -/

/-- The special-name table of the classifier, as the spec lists it:
case-insensitive bare-filename matches checked before any extension lookup. -/
def specialLabel (name : String) : Option String :=
  if eqIgnoreAsciiCase name "LICENSE" then some "License"
  else if eqIgnoreAsciiCase name "Dockerfile" then some "Build Script"
  else if eqIgnoreAsciiCase name "Makefile" then some "Build Script"
  else if eqIgnoreAsciiCase name "CMakeLists.txt" then some "CMake"
  else none

/-- `detect_file_type` factored through the special-name table followed by the
extension table. -/
lemma detect_file_type_eq (p : FsPath) (name : String)
    (h : fileNameOf p = some name) :
    detect_file_type p =
      (match specialLabel name with
       | some l => some l
       | none => (extensionOfName name).bind fun ext => extTable (asciiLower ext)) := by
  simp only [detect_file_type, h, specialLabel]
  by_cases h1 : eqIgnoreAsciiCase name "LICENSE" <;>
    by_cases h2 : eqIgnoreAsciiCase name "Dockerfile" <;>
      by_cases h3 : eqIgnoreAsciiCase name "Makefile" <;>
        by_cases h4 : eqIgnoreAsciiCase name "CMakeLists.txt" <;>
          simp only [h1, h2, h3, h4, if_true, if_false, Bool.false_eq_true,
            Bool.true_eq_false] <;>
          cases extensionOfName name <;> rfl

/-- C4: the classifier checks the bare filename against the special names
first, then the lowercased extension against the static table, and yields no
label when neither matches; the special-name check takes precedence (shown on
`CMakeLists.txt`, whose `txt` extension would otherwise yield Documentation),
and a path with no extension and no special name yields no label. -/
theorem claim_C4 :
    (∀ (p : FsPath) (name : String), fileNameOf p = some name →
      detect_file_type p =
        (match specialLabel name with
         | some l => some l
         | none => (extensionOfName name).bind fun ext => extTable (asciiLower ext))) ∧
    (∀ p name, fileNameOf p = some name → (specialLabel name).isSome →
      detect_file_type p = specialLabel name) ∧
    (∀ p name, fileNameOf p = some name → specialLabel name = none →
      extensionOfName name = none → detect_file_type p = none) ∧
    detect_file_type ["LICENSE"] = some "License" ∧
    detect_file_type ["Dockerfile"] = some "Build Script" ∧
    detect_file_type ["Makefile"] = some "Build Script" ∧
    detect_file_type ["CMakeLists.txt"] = some "CMake" ∧
    extTable (asciiLower "txt") = some "Documentation" ∧
    detect_file_type ["x.rs"] = some "Rust" ∧
    detect_file_type ["x.unknownext"] = none ∧
    detect_file_type ["noext"] = none := by
  refine ⟨detect_file_type_eq, ?_, ?_, ?_, ?_, ?_, ?_, ?_, ?_, ?_, ?_⟩
  · intro p name h hs
    rw [detect_file_type_eq p name h]
    cases hl : specialLabel name with
    | none => rw [hl] at hs; simp at hs
    | some l => simp
  · intro p name h hs he
    rw [detect_file_type_eq p name h, hs, he]
    rfl
  all_goals decide

/-- Witness: the characterization applied to the concrete path `Foo.RS`. -/
theorem claim_C4_witness : detect_file_type ["Foo.RS"] =
    (match specialLabel "Foo.RS" with
     | some l => some l
     | none => (extensionOfName "Foo.RS").bind fun ext => extTable (asciiLower ext)) :=
  claim_C4.1 ["Foo.RS"] "Foo.RS" rfl

/-! ## Exclusion list (spec §4.2, §8) -/

/-- The fixed excluded path-component names. -/
def excludedNames : List String :=
  ["target", "target_ci", "bin", "obj", "venv", ".venv", "env", ".git", ".hg", ".svn"]

/-- C5: a path with a component among the fixed excluded names is excluded by
`is_in_excluded_path`; an excluded entry contributes to neither the candidate
set nor the total count, whatever its gitignore verdict; no excluded path ever
appears among the candidates; and a gitignored entry is likewise dropped from
both on its own, so either filter alone suffices to exclude. -/
theorem claim_C5 :
    (∀ (path : FsPath) (comp : String), comp ∈ path → comp ∈ excludedNames →
      is_in_excluded_path path = true) ∧
    (∀ (e : WalkEntry) (rest : List WalkEntry) (mb : Nat),
      is_in_excluded_path e.path = true →
      scan_total_files (e :: rest) = scan_total_files rest ∧
      scan_source_files (e :: rest) mb = scan_source_files rest mb) ∧
    (∀ (walk : List WalkEntry) (mb : Nat) (p : FsPath),
      is_in_excluded_path p = true → p ∉ (scan_source_files walk mb).1) ∧
    (∀ (e : WalkEntry) (rest : List WalkEntry) (mb : Nat),
      e.ignored = true →
      scan_total_files (e :: rest) = scan_total_files rest ∧
      scan_source_files (e :: rest) mb = scan_source_files rest mb) := by
  refine ⟨?_, ?_, ?_, ?_⟩
  · intro path comp hmem hexc
    refine List.any_eq_true.mpr ⟨comp, hmem, ?_⟩
    fin_cases hexc <;> decide
  · intro e rest mb he
    exact ⟨by simp [scan_total_files, he],
      by simp [scan_source_files, scanSourceLoop, he]⟩
  · intro walk mb p hp
    simp only [scan_source_files]
    induction walk with
    | nil => simp [scanSourceLoop]
    | cons e rest ih =>
      simp only [scanSourceLoop]
      split
      · exact ih
      · split
        · split
          · exact ih
          · split
            · split
              · split
                · exact ih
                · intro hmem
                  rcases List.mem_cons.mp hmem with rfl | hmem'
                  · simp_all
                  · exact ih hmem'
              · intro hmem
                rcases List.mem_cons.mp hmem with rfl | hmem'
                · simp_all
                · exact ih hmem'
            · exact ih
        · exact ih
  · intro e rest mb he
    refine ⟨?_, ?_⟩
    · simp only [scan_total_files, he]
      split <;> simp
    · simp only [scan_source_files, scanSourceLoop, he]
      split
      · rfl
      · split <;> simp

/-- Witness: a `target` component excludes a path, and the corresponding walk
entry is dropped from total count and candidates for either filter reason. -/
theorem claim_C5_witness :
    is_in_excluded_path ["proj", "target", "a.rs"] = true ∧
    scan_total_files [⟨["proj", "target", "a.rs"], true, false, some 5⟩] = 0 ∧
    (scan_source_files [⟨["x.rs"], true, true, some 5⟩] 1).1 = [] := by
  refine ⟨claim_C5.1 ["proj", "target", "a.rs"] "target" (by decide) (by decide), ?_, ?_⟩
  · rw [(claim_C5.2.1 ⟨["proj", "target", "a.rs"], true, false, some 5⟩ [] 1
      (claim_C5.1 ["proj", "target", "a.rs"] "target" (by decide) (by decide))).1]
    rfl
  · rw [(claim_C5.2.2.2 ⟨["x.rs"], true, true, some 5⟩ [] 1 rfl).2]
    rfl

/-! ## Add-remote idempotence (spec §4.5, §8) -/

/-- C8: `add_remote` succeeds on any repository; repeating it with the same
name and URL succeeds again and is a no-op; and when the name was not yet
registered, the first call records exactly one remote of that name carrying
the URL it was given. -/
theorem claim_C8 :
    ∀ (repo : RemoteRepo) (n u : String),
      (∃ r1, add_remote repo n u = .ok r1) ∧
      (∀ r1, add_remote repo n u = .ok r1 →
        add_remote r1 n u = .ok r1 ∧
        (findRemote repo n = none →
          findRemote r1 n = some u ∧
          (r1.remotes.filter fun r => r.1 = n).length = 1)) := by
  intro repo n u
  constructor
  · by_cases h : (findRemote repo n).isNone
    · exact ⟨⟨repo.remotes ++ [(n, u)]⟩, by simp [add_remote, h]⟩
    · exact ⟨repo, by simp [add_remote, h]⟩
  · intro r1 h1
    have hfind_none : findRemote repo n = none →
        (repo.remotes.find? fun r => r.1 = n) = none := by
      intro hn
      simpa [findRemote, Option.map_eq_none'] using hn
    have hfilter : findRemote repo n = none →
        repo.remotes.filter (fun r => r.1 = n) = [] := by
      intro hn
      rw [List.filter_eq_nil_iff]
      intro r hr
      have := List.find?_eq_none.mp (hfind_none hn) r hr
      simpa using this
    by_cases h : (findRemote repo n).isNone
    · have hn : findRemote repo n = none := Option.isNone_iff_eq_none.mp h
      have hr1 : r1 = ⟨repo.remotes ++ [(n, u)]⟩ := by
        simp [add_remote, h] at h1
        exact h1.symm
      subst hr1
      have hfind : findRemote ⟨repo.remotes ++ [(n, u)]⟩ n = some u := by
        simp only [findRemote, List.find?_append]
        rw [hfind_none hn]
        simp [List.find?]
      refine ⟨by simp [add_remote, hfind], fun _ => ⟨hfind, ?_⟩⟩
      simp [List.filter_append, hfilter hn, List.filter]
    · have hr1 : r1 = repo := by
        simp [add_remote, h] at h1
        exact h1.symm
      subst hr1
      refine ⟨by simp [add_remote, h], fun hn => absurd hn ?_⟩
      simp [Option.isNone_iff_eq_none] at h
      simp [h]

/-- Witness: two calls on an empty repository register `origin` once. -/
theorem claim_C8_witness :
    add_remote ⟨[("origin", "u1")]⟩ "origin" "u1" = .ok ⟨[("origin", "u1")]⟩ ∧
    findRemote ⟨[("origin", "u1")]⟩ "origin" = some "u1" := by
  have h := (claim_C8 ⟨[]⟩ "origin" "u1").2 ⟨[("origin", "u1")]⟩ rfl
  exact ⟨h.1, (h.2 rfl).1⟩

/-! ## Commit-by-index totality over `i32` (spec §4.3; C10 is implicit in the
code's cast of the index to `usize`) -/

/-- C10: commit-by-index resolution is total over the signed 32-bit input
range: it answers a commit exactly when the index reinterpreted as an
unsigned machine word is below the number of collected commits, answers the
"Index out of bounds" error otherwise, and in particular every negative index
wraps to a value at least `2 ^ 64 - 2 ^ 31`, which exceeds any real commit
count, so every negative index yields that error. -/
theorem claim_C10 :
    ∀ (repo : RepoHistory) (idx : Int),
      ((∃ c, get_commit_by_index repo idx = .ok c) ↔
        i32AsUsize idx < repo.commits.length) ∧
      (repo.commits.length ≤ i32AsUsize idx →
        get_commit_by_index repo idx = .error "Index out of bounds") ∧
      (-(2 ^ 31) ≤ idx → idx < 0 → 2 ^ 64 - 2 ^ 31 ≤ i32AsUsize idx) ∧
      (-(2 ^ 31) ≤ idx → idx < 0 → repo.commits.length < 2 ^ 63 →
        get_commit_by_index repo idx = .error "Index out of bounds") := by
  intro repo idx
  have hwrap : -(2 ^ 31) ≤ idx → idx < 0 → 2 ^ 64 - 2 ^ 31 ≤ i32AsUsize idx := by
    intro hlo hhi
    unfold i32AsUsize
    omega
  refine ⟨?_, ?_, hwrap, ?_⟩
  · constructor
    · rintro ⟨c, hc⟩
      by_contra hge
      simp [get_commit_by_index, hge] at hc
    · intro hlt
      exact ⟨repo.commits.get ⟨i32AsUsize idx, hlt⟩, by simp [get_commit_by_index, hlt]⟩
  · intro hge
    have : ¬ i32AsUsize idx < repo.commits.length := by omega
    simp [get_commit_by_index, this]
  · intro hlo hhi hlen
    have h1 := hwrap hlo hhi
    have : ¬ i32AsUsize idx < repo.commits.length := by omega
    simp [get_commit_by_index, this]

/-- Witness: index `-1` on a one-commit repository is rejected. -/
theorem claim_C10_witness :
    get_commit_by_index ⟨[7]⟩ (-1) = .error "Index out of bounds" :=
  (claim_C10 ⟨[7]⟩ (-1)).2.2.2 (by decide) (by decide) (by decide)

/-! ## History indexing (spec §4.4 history listing, §4.3 index resolution, §8
monotonic indexing invariant) -/

/-- C1: for a repository whose revwalk collects `N` commits (newest first),
the history listing displays the commits oldest-first while labelling display
position `i` with index `N - 1 - i`, so the newest commit (displayed last)
always carries index 0 and the oldest (displayed first) always carries index
`N - 1`; and `get_commit_by_index` over the same time-descending order
answers commit `idx` exactly for `0 ≤ idx < N` and rejects every in-range
index at least `N` with the invalid-index error. -/
theorem claim_C1 :
    ∀ (repo : RepoHistory) (N : Nat), repo.commits.length = N →
      ((info_display_rows repo).map Prod.fst = repo.commits.reverse) ∧
      ((info_display_rows repo).length = N) ∧
      (∀ i, (info_display_rows repo).get? i =
        (repo.commits.reverse.get? i).map fun c => (c, N - 1 - i)) ∧
      (0 < N → (info_display_rows repo).get? (N - 1) =
        (repo.commits.get? 0).map fun c => (c, 0)) ∧
      (0 < N → (info_display_rows repo).get? 0 =
        (repo.commits.get? (N - 1)).map fun c => (c, N - 1)) ∧
      (∀ idx : Int, 0 ≤ idx → idx < 2 ^ 31 → idx.toNat < N →
        ∃ h : idx.toNat < repo.commits.length,
          get_commit_by_index repo idx = .ok (repo.commits.get ⟨idx.toNat, h⟩)) ∧
      (∀ idx : Int, (N : Int) ≤ idx → idx < 2 ^ 31 →
        get_commit_by_index repo idx = .error "Index out of bounds") := by
  intro repo N hN
  have hrevlen : repo.commits.reverse.length = N := by simp [hN]
  have hrows : ∀ i, (info_display_rows repo).get? i =
      (repo.commits.reverse.get? i).map fun c => (c, N - 1 - i) := by
    intro i
    simp only [info_display_rows, List.get?_map, List.get?_enum, hrevlen]
    cases repo.commits.reverse.get? i <;> rfl
  have hcast : ∀ idx : Int, 0 ≤ idx → idx < 2 ^ 31 → i32AsUsize idx = idx.toNat := by
    intro idx h0 h31
    unfold i32AsUsize
    omega
  refine ⟨?_, ?_, hrows, ?_, ?_, ?_, ?_⟩
  · simp only [info_display_rows, List.map_map]
    have : (Prod.fst ∘ fun ic : Nat × Oid =>
        (ic.2, repo.commits.reverse.length - 1 - ic.1)) = Prod.snd := rfl
    rw [this, List.enum_map_snd]
  · simp [info_display_rows, hN]
  · intro hpos
    rw [hrows (N - 1), List.get?_reverse (by omega)]
    have h1 : repo.commits.length - 1 - (N - 1) = 0 := by omega
    have h2 : N - 1 - (N - 1) = 0 := by omega
    rw [h1, h2]
  · intro hpos
    rw [hrows 0, List.get?_reverse (by omega)]
    have h1 : repo.commits.length - 1 - 0 = N - 1 := by omega
    rw [h1, Nat.sub_zero]
  · intro idx h0 h31 hlt
    have hc := hcast idx h0 h31
    refine ⟨by omega, ?_⟩
    simp only [get_commit_by_index, hc]
    rw [dif_pos (show idx.toNat < repo.commits.length by omega)]
  · intro idx hge h31
    have hc := hcast idx (by omega) h31
    have : ¬ i32AsUsize idx < repo.commits.length := by omega
    simp [get_commit_by_index, this]

/-- Witness: a three-commit history (ids time-descending) displays indices
`[2, 1, 0]` oldest-first, and index resolution accepts 0..2, rejects 3. -/
theorem claim_C1_witness :
    (info_display_rows ⟨[30, 20, 10]⟩).get? 0 = some (10, 2) ∧
    (info_display_rows ⟨[30, 20, 10]⟩).get? 2 = some (30, 0) ∧
    get_commit_by_index ⟨[30, 20, 10]⟩ 1 = .ok 20 ∧
    get_commit_by_index ⟨[30, 20, 10]⟩ 3 = .error "Index out of bounds" := by
  have h := claim_C1 ⟨[30, 20, 10]⟩ 3 rfl
  refine ⟨?_, ?_, ?_, h.2.2.2.2.2.2 3 (by decide) (by decide)⟩
  · rw [h.2.2.2.2.1 (by decide)]; rfl
  · rw [h.2.2.2.1 (by decide)]; rfl
  · obtain ⟨hb, hok⟩ := h.2.2.2.2.2.1 1 (by decide) (by decide) (by decide)
    exact hok

/-! ## Scanner candidate set and total count (spec §4.2, §8 size cap) -/

/-- The candidate predicate of the scan: survives exclusion list and
gitignore, is a regular file, is recognized by the classifier, and any known
size is within the byte cap. -/
def candidateKeep (cap : Nat) (e : WalkEntry) : Bool :=
  !is_in_excluded_path e.path && e.isFile && !e.ignored &&
    (detect_file_type e.path).isSome &&
    (match e.size with
     | some n => decide (n ≤ cap)
     | none => true)

/-- The total-count predicate: survives exclusion list and gitignore and is a
regular file — independent of classification and of the size cap. -/
def totalKeep (e : WalkEntry) : Bool :=
  !is_in_excluded_path e.path && !e.ignored && e.isFile

lemma scanSourceLoop_eq (cap : Nat) (walk : List WalkEntry) :
    scanSourceLoop cap walk =
      ((walk.filter (candidateKeep cap)).map (·.path),
        (walk.filter (candidateKeep cap)).length) := by
  induction walk with
  | nil => rfl
  | cons e rest ih =>
    by_cases h1 : is_in_excluded_path e.path
    · simp [scanSourceLoop, h1, ih, List.filter_cons, candidateKeep]
    · by_cases h2 : e.isFile
      · by_cases h3 : e.ignored
        · simp [scanSourceLoop, h1, h2, h3, ih, List.filter_cons, candidateKeep]
        · by_cases h4 : (detect_file_type e.path).isSome
          · cases hsz : e.size with
            | none =>
              simp [scanSourceLoop, h1, h2, h3, h4, hsz, ih, List.filter_cons,
                candidateKeep]
            | some n =>
              by_cases h5 : n > cap
              · simp [scanSourceLoop, h1, h2, h3, h4, hsz, h5, ih,
                  List.filter_cons, candidateKeep, Nat.not_le.mpr h5]
              · simp [scanSourceLoop, h1, h2, h3, h4, hsz, h5, ih,
                  List.filter_cons, candidateKeep, Nat.le_of_not_lt h5]
          · simp [scanSourceLoop, h1, h2, h3, h4, ih, List.filter_cons,
              candidateKeep]
      · simp [scanSourceLoop, h1, h2, ih, List.filter_cons, candidateKeep]

lemma scan_total_files_eq (walk : List WalkEntry) :
    scan_total_files walk = (walk.filter totalKeep).length := by
  induction walk with
  | nil => rfl
  | cons e rest ih =>
    by_cases h1 : is_in_excluded_path e.path
    · simp [scan_total_files, h1, ih, List.filter_cons, totalKeep]
    · by_cases h2 : e.ignored
      · simp [scan_total_files, h1, h2, ih, List.filter_cons, totalKeep]
      · by_cases h3 : e.isFile
        · simp [scan_total_files, h1, h2, h3, ih, List.filter_cons, totalKeep]
        · simp [scan_total_files, h1, h2, h3, ih, List.filter_cons, totalKeep]

/-- C3: the candidate set is exactly the walk entries that survive the
exclusion/ignore filters, are recognized by the classifier and whose known
byte size does not exceed the cap (unknown sizes pass, and oversized files
are merely dropped — the scan itself never fails); the reported count is the
candidate count; the total file count keeps every regular file surviving only
the ignore/exclusion filters, whatever its classification or size; and the
cap is `max_file_mb * 1024 * 1024` whenever that product fits a `u64`. -/
theorem claim_C3 :
    ∀ (walk : List WalkEntry) (mb : Nat),
      ((scan_source_files walk mb).1 =
        (walk.filter (candidateKeep (capBytes mb))).map (·.path)) ∧
      ((scan_source_files walk mb).2 =
        (walk.filter (candidateKeep (capBytes mb))).length) ∧
      (scan_total_files walk = (walk.filter totalKeep).length) ∧
      (mb * 1024 * 1024 < 2 ^ 64 → capBytes mb = mb * 1024 * 1024) := by
  intro walk mb
  refine ⟨?_, ?_, scan_total_files_eq walk, ?_⟩
  · rw [scan_source_files, scanSourceLoop_eq]
  · rw [scan_source_files, scanSourceLoop_eq]
  · intro hfit
    unfold capBytes u64SatMul
    omega

/-- Witness: with a 1 MB threshold, a recognized 1 KB file is a candidate, a
recognized 2.6 MB file is not, an unrecognized file is counted only in the
total, and the cap is exactly `1048576` bytes. -/
theorem claim_C3_witness :
    (scan_source_files
      [⟨["small.rs"], true, false, some 1024⟩,
       ⟨["big.rs"], true, false, some 2726298⟩,
       ⟨["notes.xyz"], true, false, some 10⟩] 1).1 = [["small.rs"]] ∧
    scan_total_files
      [⟨["small.rs"], true, false, some 1024⟩,
       ⟨["big.rs"], true, false, some 2726298⟩,
       ⟨["notes.xyz"], true, false, some 10⟩] = 3 ∧
    capBytes 1 = 1048576 := by
  have h := claim_C3
    [⟨["small.rs"], true, false, some 1024⟩,
     ⟨["big.rs"], true, false, some 2726298⟩,
     ⟨["notes.xyz"], true, false, some 10⟩] 1
  refine ⟨?_, ?_, h.2.2.2 (by norm_num)⟩
  · rw [h.1]; rfl
  · rw [h.2.2.1]; rfl

/-! ## Dirty-check normalization (spec §8) -/

/-- C6: on a repository with a commit, a tracked file whose only change is a
CRLF-vs-LF difference is not dirty; the same status with a real byte
difference is dirty; a newly staged (`INDEX_NEW`) file is dirty; and an
untracked file alone — which the status options either omit or report only as
`WT_NEW`, outside the candidate mask — is not dirty. -/
theorem claim_C6 :
    ∀ (p q : String) (b w u : List Nat) (ht wd : List (String × List Nat)),
      (normalize_eol b = normalize_eol w →
        is_dirty ⟨true, [(p, b)], [(p, w)], [⟨p, { wt_modified := true }⟩]⟩ = false) ∧
      (normalize_eol b ≠ normalize_eol w →
        is_dirty ⟨true, [(p, b)], [(p, w)], [⟨p, { wt_modified := true }⟩]⟩ = true) ∧
      (is_dirty ⟨true, ht, wd, [⟨q, { index_new := true }⟩]⟩ = true) ∧
      (is_dirty ⟨true, ht, wd ++ [(q, u)], [⟨q, { wt_new := true }⟩]⟩ = false) ∧
      (is_dirty ⟨true, ht, wd, []⟩ = false) := by
  intro p q b w u ht wd
  refine ⟨?_, ?_, ?_, ?_, ?_⟩
  · intro h
    simp [is_dirty, candidateChange, entryConfirmedDirty, lookupBytes, List.find?, h]
  · intro h
    simp [is_dirty, candidateChange, entryConfirmedDirty, lookupBytes, List.find?, h]
  · simp [is_dirty, candidateChange, entryConfirmedDirty]
  · simp [is_dirty, candidateChange]
  · simp [is_dirty]

/-- Witness: a CRLF-to-LF-only change on `a.txt` is clean, a byte change on
the same file is dirty. -/
theorem claim_C6_witness :
    is_dirty ⟨true, [("a.txt", [104, 105, 13, 10])], [("a.txt", [104, 105, 10])],
      [⟨"a.txt", { wt_modified := true }⟩]⟩ = false ∧
    is_dirty ⟨true, [("a.txt", [104, 105])], [("a.txt", [104, 33])],
      [⟨"a.txt", { wt_modified := true }⟩]⟩ = true := by
  constructor
  · exact (claim_C6 "a.txt" "q" [104, 105, 13, 10] [104, 105, 10] [] [] []).1
      (by decide)
  · exact (claim_C6 "a.txt" "q" [104, 105] [104, 33] [] [] []).2.1 (by decide)

/-! ## Semver normalization (spec §4.4 tag creation) -/

lemma splitFirst_eq_none {c : Char} {l a : List Char}
    (h : splitFirst c l = (a, none)) : l = a := by
  induction l generalizing a with
  | nil =>
    simpa [splitFirst] using congrArg Prod.fst h
  | cons x xs ih =>
    simp only [splitFirst] at h
    split at h
    · simp at h
    · injection h with h1 h2
      have hxs : xs = (splitFirst c xs).1 := ih (by rw [← h2])
      rw [← h1, List.cons_eq_cons]
      exact ⟨rfl, hxs⟩

lemma splitFirst_eq_some {c : Char} {l a b : List Char}
    (h : splitFirst c l = (a, some b)) : l = a ++ c :: b := by
  induction l generalizing a b with
  | nil => simp [splitFirst] at h
  | cons x xs ih =>
    simp only [splitFirst] at h
    split at h
    · rename_i hx
      injection h with h1 h2
      injection h2 with h2
      subst hx
      rw [← h1, ← h2]
      rfl
    · injection h with h1 h2
      have hxs : xs = (splitFirst c xs).1 ++ c :: b := ih (by rw [← h2])
      rw [← h1]
      rw [List.cons_append, List.cons_eq_cons]
      exact ⟨rfl, hxs⟩

lemma splitAll_ne_nil (c : Char) (l : List Char) : splitAll c l ≠ [] := by
  cases l with
  | nil => simp [splitAll]
  | cons x xs =>
    simp only [splitAll]
    split
    · simp
    · split <;> simp

lemma joinSep_splitAll (c : Char) (l : List Char) :
    joinSep c (splitAll c l) = l := by
  induction l with
  | nil => rfl
  | cons x xs ih =>
    simp only [splitAll]
    rcases hsp : splitAll c xs with _ | ⟨g, gs⟩
    · exact absurd hsp (splitAll_ne_nil c xs)
    · rw [hsp] at ih
      show joinSep c (if x = c then [] :: g :: gs else (x :: g) :: gs) = x :: xs
      by_cases hx : x = c
      · rw [if_pos hx, hx]
        show [] ++ c :: joinSep c (g :: gs) = c :: xs
        rw [ih]
        rfl
      · rw [if_neg hx]
        cases gs with
        | nil =>
          show x :: g = x :: xs
          simp only [joinSep] at ih
          rw [ih]
        | cons g2 gs2 =>
          show (x :: g) ++ c :: joinSep c (g2 :: gs2) = x :: xs
          simp only [joinSep] at ih
          rw [List.cons_append, ih]

/-- A successful strict parse reconstructs its input exactly: the canonical
rendering of the parsed version is the accepted string. -/
lemma parseSemver_chars {cs : List Char} {v : Semver}
    (h : parseSemver cs = some v) : semverChars v = cs := by
  unfold parseSemver at h
  split at h
  · rename_i a b c hsa
    split_ifs at h with hvalid
    have hcore : joinSep '.' [a, b, c] =
        (splitFirst '-' (splitFirst '+' cs).1).1 := by
      rw [← hsa, joinSep_splitAll]
    rcases hpre : (splitFirst '-' (splitFirst '+' cs).1).2 with _ | p
    · rw [hpre] at h
      rcases hbld : (splitFirst '+' cs).2 with _ | bl
      · -- no prerelease, no build
        rw [hbld] at h
        simp only [] at h
        injection h with h
        subst h
        have hcorePre : (splitFirst '+' cs).1 =
            (splitFirst '-' (splitFirst '+' cs).1).1 :=
          splitFirst_eq_none (by rw [← hpre])
        have hcs : cs = (splitFirst '+' cs).1 :=
          splitFirst_eq_none (by rw [← hbld])
        rw [hcs, hcorePre, ← hcore]
        simp [semverChars, joinSep]
      · -- no prerelease, build present
        rw [hbld] at h
        simp only [] at h
        split_ifs at h with hb
        injection h with h
        subst h
        have hcorePre : (splitFirst '+' cs).1 =
            (splitFirst '-' (splitFirst '+' cs).1).1 :=
          splitFirst_eq_none (by rw [← hpre])
        have hcs : cs = (splitFirst '+' cs).1 ++ '+' :: bl :=
          splitFirst_eq_some (by rw [← hbld])
        have hbl : joinSep '.' (splitAll '.' bl) = bl := joinSep_splitAll '.' bl
        have hbne : (splitAll '.' bl).isEmpty = false := by
          rcases hsp : splitAll '.' bl with _ | ⟨g, gs⟩
          · exact absurd hsp (splitAll_ne_nil '.' bl)
          · rfl
        rw [hcs, hcorePre, ← hcore]
        simp [semverChars, joinSep, hbne, hbl, List.append_assoc]
    · rw [hpre] at h
      rcases hbld : (splitFirst '+' cs).2 with _ | bl
      · -- prerelease present, no build
        rw [hbld] at h
        simp only [] at h
        split_ifs at h with hp
        injection h with h
        subst h
        have hcorePre : (splitFirst '+' cs).1 =
            (splitFirst '-' (splitFirst '+' cs).1).1 ++ '-' :: p :=
          splitFirst_eq_some (by rw [← hpre])
        have hcs : cs = (splitFirst '+' cs).1 :=
          splitFirst_eq_none (by rw [← hbld])
        have hpl : joinSep '.' (splitAll '.' p) = p := joinSep_splitAll '.' p
        have hpne : (splitAll '.' p).isEmpty = false := by
          rcases hsp : splitAll '.' p with _ | ⟨g, gs⟩
          · exact absurd hsp (splitAll_ne_nil '.' p)
          · rfl
        rw [hcs, hcorePre, ← hcore]
        simp [semverChars, joinSep, hpne, hpl, List.append_assoc]
      · -- prerelease and build present
        rw [hbld] at h
        simp only [] at h
        split_ifs at h with hp hb
        injection h with h
        subst h
        have hcorePre : (splitFirst '+' cs).1 =
            (splitFirst '-' (splitFirst '+' cs).1).1 ++ '-' :: p :=
          splitFirst_eq_some (by rw [← hpre])
        have hcs : cs = (splitFirst '+' cs).1 ++ '+' :: bl :=
          splitFirst_eq_some (by rw [← hbld])
        have hpl : joinSep '.' (splitAll '.' p) = p := joinSep_splitAll '.' p
        have hbl : joinSep '.' (splitAll '.' bl) = bl := joinSep_splitAll '.' bl
        have hpne : (splitAll '.' p).isEmpty = false := by
          rcases hsp : splitAll '.' p with _ | ⟨g, gs⟩
          · exact absurd hsp (splitAll_ne_nil '.' p)
          · rfl
        have hbne : (splitAll '.' bl).isEmpty = false := by
          rcases hsp : splitAll '.' bl with _ | ⟨g, gs⟩
          · exact absurd hsp (splitAll_ne_nil '.' bl)
          · rfl
        rw [hcs, hcorePre, ← hcore]
        simp [semverChars, joinSep, hpne, hpl, hbne, hbl, List.append_assoc]
  · exact absurd h (by simp)

/-- C7: tag-version normalization trims the input, strips every leading `v`,
and parses the remainder as a strict semantic version; on success the tag
name is `v` followed by the canonical rendering — which reproduces the
remainder exactly — and on a remainder that is not a valid strict semantic
version the operation is a hard error, and a tag-creation call carrying such
a version errors out having performed no effect. -/
theorem claim_C7 :
    ∀ input : String,
      (∀ v tag, normalize_semver_tag input = .ok (v, tag) →
        parseSemver (stripLeadingV (rustTrim input.toList)) = some v ∧
        tag = "v" ++ semverToString v ∧
        tag.toList = 'v' :: stripLeadingV (rustTrim input.toList)) ∧
      (parseSemver (stripLeadingV (rustTrim input.toList)) = none →
        normalize_semver_tag input = .error "invalid semver") ∧
      (∀ (ctx : TagContext) (push : Bool) (remote : String) (force dry_run : Bool),
        ctx.versionFlag = some input →
        parseSemver (stripLeadingV (rustTrim input.toList)) = none →
        tagCore ctx push remote force dry_run = ⟨.error "invalid semver", []⟩) := by
  intro input
  refine ⟨?_, ?_, ?_⟩
  · intro v tag h
    simp only [normalize_semver_tag] at h
    cases hp : parseSemver (stripLeadingV (rustTrim input.toList)) with
    | none => rw [hp] at h; simp at h
    | some parsed =>
      rw [hp] at h
      simp only [Except.ok.injEq, Prod.mk.injEq] at h
      obtain ⟨hv, htag⟩ := h
      refine ⟨congrArg some hv, by rw [← htag, hv], ?_⟩
      rw [← htag]
      have hl : ("v" ++ semverToString parsed).toList = 'v' :: semverChars parsed := by
        simp [semverToString, String.toList]
      rw [hl, parseSemver_chars hp]
  · intro hp
    simp only [normalize_semver_tag]
    rw [hp]
  · intro ctx push remote force dry_run hflag hp
    have hn : normalize_semver_tag input = .error "invalid semver" := by
      simp only [normalize_semver_tag]
      rw [hp]
    simp only [tagCore, hflag]
    rw [hn]

/-- Witness: `"  v1.2.3  "` normalizes to tag `v1.2.3`; `"abc"` is rejected
and a tag call carrying it performs nothing. -/
theorem claim_C7_witness :
    parseSemver (stripLeadingV (rustTrim "  v1.2.3  ".toList)) =
      some ⟨['1'], ['2'], ['3'], [], []⟩ ∧
    normalize_semver_tag "abc" = .error "invalid semver" ∧
    tagCore ⟨false, some "abc", none, "", [], [], true, true⟩ true "origin"
      false false = ⟨.error "invalid semver", []⟩ := by
  have h1 := (claim_C7 "  v1.2.3  ").1 ⟨['1'], ['2'], ['3'], [], []⟩ "v1.2.3" rfl
  refine ⟨h1.1, (claim_C7 "abc").2.1 (by decide), ?_⟩
  exact (claim_C7 "abc").2.2 ⟨false, some "abc", none, "", [], [], true, true⟩
    true "origin" false false rfl (by decide)

/-! ## Tag creation and the dirty gate (spec §4.4 tag creation) -/

/-- C2 (amended): the library's `tag_release` enforces the gate — without the
allow-dirty override a dirty tree is an error before any effect, with the
override the dirty flag is irrelevant and the call proceeds — while the
binary's `tag_release` performs no dirty check at all and ignores the
override, so there a dirty tree without the override still creates the tag. -/
theorem claim_C2 :
    ∀ (ctx : TagContext) (push : Bool) (remote : String) (force dry_run : Bool),
      (ctx.dirty = true →
        lib_tag_release ctx push remote force false dry_run =
          ⟨.error dirtyTreeMsg, []⟩) ∧
      (∀ d, lib_tag_release { ctx with dirty := d } push remote force true dry_run =
        tagCore { ctx with dirty := d } push remote force dry_run) ∧
      (ctx.dirty = false →
        lib_tag_release ctx push remote force false dry_run =
          tagCore ctx push remote force dry_run) ∧
      (lib_tag_release { ctx with dirty := true } push remote force true dry_run =
        lib_tag_release { ctx with dirty := false } push remote force true dry_run) ∧
      (∀ ad, main_tag_release ctx push remote force ad dry_run =
        tagCore ctx push remote force dry_run) := by
  intro ctx push remote force dry_run
  refine ⟨?_, ?_, ?_, ?_, ?_⟩
  · intro hd
    simp [lib_tag_release, hd]
  · intro d
    simp [lib_tag_release]
  · intro hd
    simp [lib_tag_release, hd]
  · simp only [lib_tag_release]
    simp [tagCore]
  · intro ad
    rfl

/-- Witness: on a clean tree without the override the library call runs the
shared tagging sequence. -/
theorem claim_C2_witness :
    lib_tag_release ⟨false, some "1.2.3", none, "", [], [], true, true⟩
        false "origin" false false false =
      tagCore ⟨false, some "1.2.3", none, "", [], [], true, true⟩
        false "origin" false false :=
  (claim_C2 ⟨false, some "1.2.3", none, "", [], [], true, true⟩
    false "origin" false false).2.2.1 rfl

/-- Counterexample to C2 as stated: the binary's `tag_release` — the
tag-creation call the CLI dispatches to — succeeds and creates the tag on a
dirty working tree even though the allow-dirty override is not set. -/
theorem claim_C2_counterexample :
    main_tag_release ⟨true, some "1.2.3", none, "", [], [], true, true⟩
        false "origin" false false false =
      ⟨.ok (), [.tagCreated "v1.2.3"]⟩ := by
  rfl

/-! ## Tree checkout round-trip (spec §8) -/

lemma checkoutEntries_eq (target : FsPath) (es : List (String × GitObj)) :
    checkoutEntries target es =
      (treeBlobsEntries es).map (fun pc => (target ++ pc.1, pc.2)) := by
  induction target, es using checkoutEntries.induct with
  | case1 t => simp [checkoutEntries, treeBlobsEntries]
  | case2 t name sub rest ih1 ih2 =>
    simp only [checkoutEntries, treeBlobsEntries, List.map_append, List.map_map,
      ih1, ih2]
    congr 1
    refine List.map_congr_left ?_
    intro pc _
    simp [List.append_assoc]
  | case3 t name c rest ih =>
    simp [checkoutEntries, treeBlobsEntries, ih]
  | case4 t name rest ih =>
    simp [checkoutEntries, treeBlobsEntries, ih]

/-- Every blob path below an entry list starts with the name of one of its
entries. -/
lemma treeBlobsEntries_mem_shape :
    ∀ (es : List (String × GitObj)) (pc : FsPath × List Nat),
      pc ∈ treeBlobsEntries es →
      ∃ n q, pc.1 = n :: q ∧ n ∈ es.map Prod.fst := by
  intro es
  induction es with
  | nil => simp [treeBlobsEntries]
  | cons e rest ih =>
    obtain ⟨name, obj⟩ := e
    cases obj with
    | tree sub =>
      intro pc hpc
      simp only [treeBlobsEntries, List.mem_append, List.mem_map] at hpc
      rcases hpc with ⟨pc', _, rfl⟩ | hpc
      · exact ⟨name, pc'.1, rfl, by simp⟩
      · obtain ⟨n, q, hq, hn⟩ := ih pc hpc
        exact ⟨n, q, hq, by simp [hn]⟩
    | blob c =>
      intro pc hpc
      simp only [treeBlobsEntries, List.mem_cons] at hpc
      rcases hpc with rfl | hpc
      · exact ⟨name, [], rfl, by simp⟩
      · obtain ⟨n, q, hq, hn⟩ := ih pc hpc
        exact ⟨n, q, hq, by simp [hn]⟩
    | commitLink =>
      intro pc hpc
      simp only [treeBlobsEntries] at hpc
      obtain ⟨n, q, hq, hn⟩ := ih pc hpc
      exact ⟨n, q, hq, by simp [hn]⟩

/-- Under well-formedness the blob paths of an entry list are pairwise
distinct. -/
lemma treeBlobsEntries_paths_nodup :
    ∀ (es : List (String × GitObj)), wfEntries es = true →
      ((treeBlobsEntries es).map Prod.fst).Nodup := by
  intro es
  induction es using treeBlobsEntries.induct with
  | case1 =>
    intro _
    simp [treeBlobsEntries]
  | case2 name sub rest ihsub ihrest =>
    intro hwf
    simp only [wfEntries, wfObj, Bool.and_eq_true] at hwf
    obtain ⟨⟨hnot, hsub⟩, hrest⟩ := hwf
    have hnotmem : name ∉ rest.map Prod.fst := by simpa using hnot
    simp only [treeBlobsEntries, List.map_append, List.map_map]
    rw [List.nodup_append]
    refine ⟨?_, ihrest hrest, ?_⟩
    · have hcomp : (Prod.fst ∘ fun pc : FsPath × List Nat => (name :: pc.1, pc.2)) =
          ((name :: ·) ∘ Prod.fst) := rfl
      rw [hcomp, ← List.map_map]
      refine List.Nodup.map ?_ (ihsub hsub)
      intro a b hab
      injection hab
    · intro x hx hx'
      simp only [List.mem_map, Function.comp] at hx hx'
      obtain ⟨pc, _, rfl⟩ := hx
      obtain ⟨pc', hpc', heq⟩ := hx'
      obtain ⟨n, q, hq, hn⟩ := treeBlobsEntries_mem_shape rest pc' hpc'
      rw [hq] at heq
      injection heq with he1 _
      exact hnotmem (he1 ▸ hn)
  | case3 name c rest ih =>
    intro hwf
    simp only [wfEntries, wfObj, Bool.and_eq_true] at hwf
    obtain ⟨⟨hnot, _⟩, hrest⟩ := hwf
    have hnotmem : name ∉ rest.map Prod.fst := by simpa using hnot
    simp only [treeBlobsEntries, List.map_cons]
    rw [List.nodup_cons]
    refine ⟨?_, ih hrest⟩
    intro hmem
    simp only [List.mem_map] at hmem
    obtain ⟨pc, hpc, heq⟩ := hmem
    obtain ⟨n, q, hq, hn⟩ := treeBlobsEntries_mem_shape rest pc hpc
    rw [hq] at heq
    injection heq with he1 _
    exact hnotmem (he1 ▸ hn)
  | case4 name rest ih =>
    intro hwf
    simp only [wfEntries, wfObj, Bool.and_eq_true] at hwf
    obtain ⟨⟨_, _⟩, hrest⟩ := hwf
    simp only [treeBlobsEntries]
    exact ih hrest

lemma readBack_eq_none (writes : List (FsPath × List Nat)) (p : FsPath)
    (h : p ∉ writes.map Prod.fst) : readBack writes p = none := by
  induction writes with
  | nil => rfl
  | cons w rest ih =>
    simp only [List.map_cons, List.mem_cons, not_or] at h
    obtain ⟨h1, h2⟩ := h
    simp only [readBack, ih h2]
    rw [if_neg fun he => h1 he.symm]

lemma readBack_some_iff (writes : List (FsPath × List Nat)) (p : FsPath)
    (h : (writes.map Prod.fst).Nodup) :
    ∀ c, (readBack writes p = some c ↔ (p, c) ∈ writes) := by
  induction writes with
  | nil => simp [readBack]
  | cons w rest ih =>
    simp only [List.map_cons, List.nodup_cons] at h
    obtain ⟨hw, hrest⟩ := h
    intro c
    simp only [readBack, List.mem_cons]
    cases hr : readBack rest p with
    | some c' =>
      simp only []
      constructor
      · intro he
        injection he with he
        subst he
        exact Or.inr ((ih hrest c').mp hr)
      · rintro (rfl | hmem)
        · exfalso
          have hp : p ∈ rest.map Prod.fst := by
            by_contra hnp
            rw [readBack_eq_none rest p hnp] at hr
            exact Option.noConfusion hr
          exact hw hp
        · rw [(ih hrest c).mpr hmem] at hr
          injection hr with hr
          rw [hr]
    | none =>
      simp only []
      by_cases hwp : w.1 = p
      · rw [if_pos hwp]
        constructor
        · intro he
          injection he with he
          left
          rw [← he, ← hwp]
        · rintro (rfl | hmem)
          · rfl
          · exfalso
            rw [(ih hrest c).mpr hmem] at hr
            exact Option.noConfusion hr
      · rw [if_neg hwp]
        constructor
        · intro he
          exact Option.noConfusion he
        · rintro (rfl | hmem)
          · exact absurd rfl hwp
          · rw [(ih hrest c).mpr hmem] at hr
            exact Option.noConfusion hr

/-- C9: materializing a tree writes exactly its blobs at their relative paths
under the target directory, and — for a well-formed tree (distinct entry
names per level, as git guarantees for tree objects) — re-reading the
materialized directory answers, for every blob of the tree, exactly its
byte contents at its relative path, and nothing else. -/
theorem claim_C9 :
    ∀ (t : GitObj) (target : FsPath),
      (checkoutWrites target t =
        (treeBlobs t).map fun pc => (target ++ pc.1, pc.2)) ∧
      (wfObj t = true → ∀ (p : FsPath) (c : List Nat),
        ((p, c) ∈ treeBlobs t ↔
          readBack (checkoutWrites target t) (target ++ p) = some c)) := by
  intro t target
  constructor
  · cases t with
    | tree es => simpa [checkoutWrites, treeBlobs] using checkoutEntries_eq target es
    | blob c => simp [checkoutWrites, treeBlobs]
    | commitLink => simp [checkoutWrites, treeBlobs]
  · intro hwf p c
    cases t with
    | blob c' => simp [checkoutWrites, treeBlobs, readBack]
    | commitLink => simp [checkoutWrites, treeBlobs, readBack]
    | tree es =>
      simp only [checkoutWrites, treeBlobs]
      rw [checkoutEntries_eq]
      have hwfe : wfEntries es = true := by simpa [wfObj] using hwf
      have hnodup : ((((treeBlobsEntries es).map
          fun pc => (target ++ pc.1, pc.2))).map Prod.fst).Nodup := by
        rw [List.map_map]
        have hcomp : (Prod.fst ∘ fun pc : FsPath × List Nat => (target ++ pc.1, pc.2)) =
            ((target ++ ·) ∘ Prod.fst) := rfl
        rw [hcomp, ← List.map_map]
        refine List.Nodup.map ?_ (treeBlobsEntries_paths_nodup es hwfe)
        intro a b hab
        exact List.append_cancel_left hab
      rw [readBack_some_iff _ _ hnodup]
      constructor
      · intro hmem
        exact List.mem_map.mpr ⟨(p, c), hmem, rfl⟩
      · intro hmem
        obtain ⟨pc, hpc, heq⟩ := List.mem_map.mp hmem
        rcases pc with ⟨q, c'⟩
        simp only [Prod.mk.injEq] at heq
        obtain ⟨h1, h2⟩ := heq
        have hqp : q = p := List.append_cancel_left h1
        rw [← hqp, ← h2]
        exact hpc

/-- Witness: a two-level tree round-trips: the nested blob `src/a.rs` is
re-read byte-identically at its relative path under the target. -/
theorem claim_C9_witness :
    readBack
      (checkoutWrites ["tmp"]
        (.tree [("src", .tree [("a.rs", .blob [1, 2])]), ("b.md", .blob [3])]))
      (["tmp"] ++ ["src", "a.rs"]) = some [1, 2] := by
  have h := (claim_C9
    (.tree [("src", .tree [("a.rs", .blob [1, 2])]), ("b.md", .blob [3])])
    ["tmp"]).2
    (by simp [wfObj, wfEntries]) ["src", "a.rs"] [1, 2]
  exact h.mp (by simp [treeBlobs, treeBlobsEntries])

end Mdcode
